import Mathlib

/-
  Verification of the text segmentation and field-extraction engine of
  src/limmatwelle_scraper_selenium.py (functions find_baugesuch_sections,
  parse_baugesuch, and the assembly loop in main).

  Texts are modelled as List Char.  Pythonic case-insensitive matching of the
  ASCII-only literal tokens of the source is modelled by per-character ASCII
  lowering (lowerC); section.upper() is modelled by per-character ASCII raising
  (upperC).  This is faithful for the containment tests performed by the code:
  every token involved is pure ASCII and contains none of the letters (S, F, I)
  that non-ASCII characters can produce under Python's full case mapping.
-/

set_option maxRecDepth 8000

namespace LW

/-! ### Characters appearing in the source literals (non-ASCII ones by code point) -/

/-- The character Ã (U+00C3), first half of every mojibake pair in the source. -/
def chA3 : Char := Char.ofNat 0xC3

/-- The character œ (U+0153), second half of the mojibake pair for Ü. -/
def chOE : Char := Char.ofNat 0x153

/-- The character ¤ (U+00A4), second half of the mojibake pair for ä. -/
def chCur : Char := Char.ofNat 0xA4

/-- The character ¶ (U+00B6), second half of the mojibake pair for ö. -/
def chPil : Char := Char.ofNat 0xB6

/-- The character – (U+2013), second half of the mojibake pair for Ö. -/
def chDash : Char := Char.ofNat 0x2013

/-- The character „ (U+201E), second half of the mojibake pair for Ä. -/
def chLowQ : Char := Char.ofNat 0x201E

/-- The character © (U+00A9), second half of the mojibake pair for é. -/
def chCopy : Char := Char.ofNat 0xA9

/-- The character ¨ (U+00A8), second half of the mojibake pair for è. -/
def chDia : Char := Char.ofNat 0xA8

/-- The character Ü (U+00DC). -/
def chUU : Char := Char.ofNat 0xDC

/-- The character ü (U+00FC). -/
def chuu : Char := Char.ofNat 0xFC

/-- The character ä (U+00E4). -/
def chae : Char := Char.ofNat 0xE4

/-- The character ö (U+00F6). -/
def choe2 : Char := Char.ofNat 0xF6

/-- The character Ö (U+00D6). -/
def chOO : Char := Char.ofNat 0xD6

/-- The character Ä (U+00C4). -/
def chAA : Char := Char.ofNat 0xC4

/-- The character é (U+00E9). -/
def chee : Char := Char.ofNat 0xE9

/-- The character è (U+00E8). -/
def chgr : Char := Char.ofNat 0xE8

/-- The character à (U+00E0). -/
def chagr : Char := Char.ofNat 0xE0

/-! ### Generic string primitives (models of the Python operations used) -/

/-- ASCII lowercase map, the model of case-insensitive matching of the
source's ASCII-only tokens (re.IGNORECASE). -/
def lowerC (c : Char) : Char :=
  if 65 ≤ c.toNat ∧ c.toNat ≤ 90 then Char.ofNat (c.toNat + 32) else c

/-- ASCII uppercase map, the model of str.upper() as used by the code
(only the containment of the ASCII token BAUVERWALTUNG is ever tested). -/
def upperC (c : Char) : Char :=
  if 97 ≤ c.toNat ∧ c.toNat ≤ 122 then Char.ofNat (c.toNat - 32) else c

/-- Python whitespace (the set matched by \s and stripped by str.strip). -/
def pySpace (c : Char) : Bool :=
  decide (9 ≤ c.toNat ∧ c.toNat ≤ 13) || decide (28 ≤ c.toNat ∧ c.toNat ≤ 32) ||
  decide (c.toNat = 0x85) || decide (c.toNat = 0xA0) || decide (c.toNat = 0x1680) ||
  decide (0x2000 ≤ c.toNat ∧ c.toNat ≤ 0x200A) || decide (c.toNat = 0x2028) ||
  decide (c.toNat = 0x2029) || decide (c.toNat = 0x202F) || decide (c.toNat = 0x205F) ||
  decide (c.toNat = 0x3000)

/-- Does s start with the given lowercase pattern, ASCII-case-insensitively?
(model of matching a literal token under re.IGNORECASE). -/
def iStarts (pat s : List Char) : Bool :=
  (s.take pat.length).map lowerC == pat

/-- Does s start with pat, case-sensitively? -/
def startsCS (pat s : List Char) : Bool :=
  s.take pat.length == pat

/-- Case-insensitive containment of a lowercase token (re.search of a literal). -/
def hasCI (pat : List Char) : List Char → Bool
  | [] => false
  | c :: rest => iStarts pat (c :: rest) || hasCI pat rest

/-- Case-sensitive containment (the Python membership operator, for nonempty needles). -/
def containsCS (pat : List Char) : List Char → Bool
  | [] => false
  | c :: rest => startsCS pat (c :: rest) || containsCS pat rest

/-- Everything before the first case-sensitive occurrence of pat; the whole
list when pat does not occur.  Model of s.split(pat)[0]. -/
def takeBeforeFirst (pat : List Char) : List Char → List Char
  | [] => []
  | c :: rest =>
    if startsCS pat (c :: rest) then [] else c :: takeBeforeFirst pat rest

/-- One left-to-right non-overlapping replacement pass for a two-character
pattern a,b replaced by the single character c: the model of Python
str.replace for the two-character mojibake literals of the source. -/
def replace2 (a b c : Char) : List Char → List Char
  | [] => []
  | [x] => [x]
  | x :: y :: rest =>
    if x = a ∧ y = b then c :: replace2 a b c rest
    else x :: replace2 a b c (y :: rest)

/-- Does the list contain the two adjacent characters a, b anywhere? -/
def hasPair (a b : Char) : List Char → Bool
  | [] => false
  | [_] => false
  | x :: y :: rest => (x == a && y == b) || hasPair a b (y :: rest)

/-- The mojibake repair of parse_baugesuch (source lines 400-401): eight
chained str.replace calls, applied in source order. -/
def fixEncoding (s : List Char) : List Char :=
  replace2 chA3 ' ' chagr
    (replace2 chA3 chDia chgr
      (replace2 chA3 chCopy chee
        (replace2 chA3 chLowQ chAA
          (replace2 chA3 chDash chOO
            (replace2 chA3 chPil choe2
              (replace2 chA3 chCur chae
                (replace2 chA3 chOE chUU s)))))))

/-! ### Segmenter: find_baugesuch_sections (source lines 350-380) -/

/-- The header token, lowercase (matched under re.IGNORECASE). -/
def bTok : List Char := "baugesuchspublikation".data

/-- The boilerplate terminator token (matched exactly by str.split). -/
def bvw : List Char := "BAUVERWALTUNG".data

/-- The canonical terminator string appended by the code: BAUVERWALTUNGWÜRENLOS. -/
def canonTerm : List Char := "BAUVERWALTUNGW".data ++ [chUU] ++ "RENLOS".data

/-- Split at the first case-insensitive occurrence of pat: returns the text
before the occurrence and the text from the occurrence on (model of the
leftmost match found by re.split / re.search for a literal token). -/
def isplit1 (pat : List Char) : List Char → Option (List Char × List Char)
  | [] => none
  | c :: rest =>
    if iStarts pat (c :: rest) then some ([], c :: rest)
    else
      match isplit1 pat rest with
      | none => none
      | some (pre, post) => some (c :: pre, post)

/-- Reconstruction loop of find_baugesuch_sections: given the matched header
text tokTxt and the text after it, produce the pieces
parts[i] ++ parts[i+1] of re.split with a capturing group, i.e. each matched
header together with the text up to the next match.  fuel is an upper bound
on the scan length (any fuel at least rest.length yields the same result). -/
def piecesAux : Nat → List Char → List Char → List (List Char)
  | 0, tokTxt, rest => [tokTxt ++ rest]
  | Nat.succ n, tokTxt, rest =>
    match isplit1 bTok rest with
    | none => [tokTxt ++ rest]
    | some (pre, post) =>
      (tokTxt ++ pre) :: piecesAux n (post.take bTok.length) (post.drop bTok.length)

/-- All candidate pieces of the page text: one per case-insensitive occurrence
of the header token, each starting with the matched header text. -/
def pieces (t : List Char) : List (List Char) :=
  match isplit1 bTok t with
  | none => []
  | some (_, post) => piecesAux t.length (post.take bTok.length) (post.drop bTok.length)

/-- Does the locality regex W[üÜu]renlos match (under re.IGNORECASE) at the
head of the list? -/
def wMatchAt : List Char → Bool
  | c0 :: c1 :: rest =>
    (c0 == 'W' || c0 == 'w') &&
    (c1 == chuu || c1 == chUU || c1 == 'u' || c1 == 'U') &&
    iStarts "renlos".data rest
  | _ => false

/-- The locality filter: re.search of W[üÜu]renlos, re.IGNORECASE, anywhere. -/
def hasWurenlos : List Char → Bool
  | [] => false
  | c :: rest => wMatchAt (c :: rest) || hasWurenlos rest

/-- The terminator handling of find_baugesuch_sections (source lines 368-370):
if BAUVERWALTUNG occurs in section.upper(), replace the section by
section.split(BAUVERWALTUNG)[0] (a case-sensitive split) with the canonical
terminator appended. -/
def emitSection (sec : List Char) : List Char :=
  if containsCS bvw (sec.map upperC) then takeBeforeFirst bvw sec ++ canonTerm
  else sec

/-- find_baugesuch_sections: split the text at every case-insensitive
occurrence of the header token, keep the pieces matching the locality filter,
and normalize their terminator boilerplate. -/
def find_baugesuch_sections (t : List Char) : List (List Char) :=
  (pieces t).filterMap fun sec =>
    if hasWurenlos sec then some (emitSection sec) else none

/-- Number of case-insensitive occurrences of pat (number of start
positions at which pat matches). -/
def iOccCount (pat : List Char) : List Char → Nat
  | [] => 0
  | c :: rest => (if iStarts pat (c :: rest) then 1 else 0) + iOccCount pat rest

/-! ### FieldExtractor: parse_baugesuch (source lines 395-490) -/

/-- The lazy capture (.*?) followed by the lookahead (?=T1|..|$) under
re.DOTALL without re.MULTILINE: the characters up to the first position at
which one of the (case-insensitive) terminator tokens starts, or at which $
holds ($ matches at the end of the string and just before a terminal
newline). -/
def takeUntilTerm (terms : List (List Char)) : List Char → List Char
  | [] => []
  | c :: rest =>
    if terms.any fun t => iStarts t (c :: rest) then []
    else
      match rest with
      | [] => if c = '\n' then [] else [c]
      | _ :: _ => c :: takeUntilTerm terms rest

/-- Python str.split of a text on the newline character. -/
def splitNL : List Char → List (List Char)
  | [] => [[]]
  | c :: rest =>
    match splitNL rest with
    | [] => [[]]
    | h :: t => if c = '\n' then [] :: h :: t else (c :: h) :: t

/-- Python str.strip: remove leading and trailing whitespace. -/
def pyStrip (l : List Char) : List Char :=
  (((l.dropWhile pySpace).reverse).dropWhile pySpace).reverse

/-- The continuation-line walk of parse_baugesuch: strip each line, accept it
while it is non-empty and does not match the reject pattern, stop at the
first rejected line. -/
def takeLines (reject : List Char → Bool) : List (List Char) → List (List Char)
  | [] => []
  | l :: ls =>
    if pyStrip l ≠ [] ∧ reject (pyStrip l) = false
    then pyStrip l :: takeLines reject ls else []

/-- Python sep.join. -/
def pyJoin (sep : List Char) : List (List Char) → List Char
  | [] => []
  | [l] => l
  | l :: l2 :: ls => l ++ sep ++ pyJoin sep (l2 :: ls)

/-- Worker for whitespace collapsing; the flag records whether the previous
input character belonged to a whitespace run already emitted as one space. -/
def collapseAux : Bool → List Char → List Char
  | _, [] => []
  | prevSp, c :: rest =>
    if pySpace c then
      if prevSp then collapseAux true rest else ' ' :: collapseAux true rest
    else c :: collapseAux false rest

/-- re.sub of one or more whitespace characters by a single space. -/
def collapseWS (s : List Char) : List Char := collapseAux false s

/-- Consume an optional leading dot (the \.? of the identifier pattern). -/
def nrAfterDot (r : List Char) : List Char :=
  if r.take 1 = ['.'] then r.drop 1 else r

/-- Consume an optional leading colon (the :? of the identifier pattern). -/
def nrAfterColon (r : List Char) : List Char :=
  if r.take 1 = [':'] then r.drop 1 else r

/-- The digit group of the identifier pattern at this position: after the
11-character header, the optional dot, the optional colon and greedy
whitespace, the maximal run of decimal digits. -/
def nrDigits (s : List Char) : List Char :=
  ((nrAfterColon (nrAfterDot (s.drop 11))).dropWhile pySpace).takeWhile Char.isDigit

/-- Match of the identifier pattern BaugesuchNr\.?:?\s*(\d+) anchored at the
head of the list (returns the digit group).  The optional dot and colon are
consumed greedily; since whitespace and digits are disjoint from them no
backtracking can produce a match the greedy walk misses. -/
def matchNrAt (s : List Char) : Option (List Char) :=
  if iStarts "baugesuchnr".data s then
    if nrDigits s = [] then none else some (nrDigits s)
  else none

/-- re.search of the identifier pattern: try every start position from the
left, return the first digit group. -/
def searchNr : List Char → Option (List Char)
  | [] => none
  | c :: rest =>
    match matchNrAt (c :: rest) with
    | some d => some d
    | none => searchNr rest

/-- The text after the first case-insensitive occurrence of hdr. -/
def searchHeader (hdr : List Char) : List Char → Option (List Char)
  | [] => none
  | c :: rest =>
    if iStarts hdr (c :: rest) then some ((c :: rest).drop hdr.length)
    else searchHeader hdr rest

/-- As searchHeader, but also return the matched header text itself (used by
the others field, whose capture group includes its header token). -/
def searchHeaderKeep (hdr : List Char) : List Char → Option (List Char × List Char)
  | [] => none
  | c :: rest =>
    if iStarts hdr (c :: rest) then
      some ((c :: rest).take hdr.length, (c :: rest).drop hdr.length)
    else searchHeaderKeep hdr rest

/-- The group start after a field header: skip an optional colon (the :?)
and then greedy whitespace (the \s*). -/
def afterColonWS (after : List Char) : List Char :=
  (if after.take 1 = [':'] then after.drop 1 else after).dropWhile pySpace

/-- The accepted continuation lines of one field given the text after its
header: capture lazily up to the terminator lookahead, strip, split into
lines and run the continuation-line walk. -/
def fieldLinesRaw (terms : List (List Char)) (reject : List Char → Bool)
    (after : List Char) : List (List Char) :=
  takeLines reject (splitNL (pyStrip (takeUntilTerm terms (afterColonWS after))))

/-- One multi-line field of parse_baugesuch: locate the header token, skip an
optional colon and following whitespace, capture lazily up to the terminator
lookahead, then run the continuation-line walk.  Returns the accepted lines
(the source joins or indexes them per field). -/
def lineFieldLines (hdr : List Char) (terms : List (List Char))
    (reject : List Char → Bool) (s : List Char) : Option (List (List Char)) :=
  match searchHeader hdr s with
  | none => none
  | some after =>
    if fieldLinesRaw terms reject after = [] then none
    else some (fieldLinesRaw terms reject after)

/-- Reject pattern of the Bauherrschaft walk: ^(Bauvorhaben|Lage|Zone|Zusatzgesuch): -/
def rejHerr (l : List Char) : Bool :=
  iStarts "bauvorhaben:".data l || iStarts "lage:".data l ||
  iStarts "zone:".data l || iStarts "zusatzgesuch:".data l

/-- Reject pattern of the Bauvorhaben walk: ^(Lage|Zone|Bauherrschaft): -/
def rejVor (l : List Char) : Bool :=
  iStarts "lage:".data l || iStarts "zone:".data l || iStarts "bauherrschaft:".data l

/-- Reject pattern of the Lage walk: ^(Zone|Zusatzgesuch): -/
def rejLage (l : List Char) : Bool :=
  iStarts "zone:".data l || iStarts "zusatzgesuch:".data l

/-- Reject pattern of the Zone walk: ^(Zusatzgesuch|Gesuchsauflage): -/
def rejZone (l : List Char) : Bool :=
  iStarts "zusatzgesuch:".data l || iStarts "gesuchsauflage:".data l

/-- Reject pattern of the Zusatzgesuch walk: ^Gesuchsauflage -/
def rejZus (l : List Char) : Bool :=
  iStarts "gesuchsauflage".data l

/-- The capture of the others field before truncation: the group
(Gesuchsauflage.*?)(?=BAUVERWALTUNG|$), stripped, with whitespace runs
collapsed. -/
def othersRaw (s : List Char) : Option (List Char) :=
  (searchHeaderKeep "gesuchsauflage".data s).map fun mp =>
    collapseWS (pyStrip (mp.1 ++ takeUntilTerm ["bauverwaltung".data] mp.2))

/-- The length bound on the others value: over 500 characters is cut to 500
plus a three-character ellipsis. -/
def trunc500 (v : List Char) : List Char :=
  if 500 < v.length then v.take 500 ++ "...".data else v

/-- One parsed announcement: the dict built by parse_baugesuch, with a key
absent exactly when the Option is none.  Field order is the insertion order
of the source. -/
structure Record where
  Baugesuch_Nr : Option (List Char)
  Bauherrschaft : Option (List Char)
  Bauvorhaben : Option (List Char)
  Lage : Option (List Char)
  Zone : Option (List Char)
  Zusatzgesuch : Option (List Char)
  others : Option (List Char)
deriving Repr, DecidableEq

/-- The field extraction proper: the body of parse_baugesuch after the
mojibake repair of its first two lines. -/
def parseFields (s : List Char) : Record where
  Baugesuch_Nr := searchNr s
  Bauherrschaft :=
    (lineFieldLines "bauherrschaft".data ["bauvorhaben:".data] rejHerr s).map
      (pyJoin [','])
  Bauvorhaben :=
    (lineFieldLines "bauvorhaben".data ["lage:".data] rejVor s).map (pyJoin [' '])
  Lage :=
    (lineFieldLines "lage".data ["zone:".data] rejLage s).map (pyJoin [','])
  Zone :=
    (lineFieldLines "zone".data ["zusatzgesuch:".data] rejZone s).map
      (fun ls => ls.headD [])
  Zusatzgesuch :=
    (lineFieldLines "zusatzgesuch".data ["gesuchsauflage".data] rejZus s).map
      (pyJoin [','])
  others := (othersRaw s).map trunc500

/-- parse_baugesuch: repair mojibake in the section, then extract the fields. -/
def parse_baugesuch (s : List Char) : Record :=
  parseFields (fixEncoding s)

/-- The values present in the dict, in insertion order (data.values()). -/
def recordValues (r : Record) : List (List Char) :=
  [r.Baugesuch_Nr, r.Bauherrschaft, r.Bauvorhaben, r.Lage, r.Zone,
   r.Zusatzgesuch, r.others].filterMap id

/-- any(data.values()): some present value is a non-empty string. -/
def anyValues (r : Record) : Bool :=
  (recordValues r).any fun v => !v.isEmpty

/-- The assembly loop of main (source lines 571-578): segment the page text,
parse each section, keep the records with at least one truthy value. -/
def assemble (t : List Char) : List Record :=
  ((find_baugesuch_sections t).map parse_baugesuch).filter anyValues

/-- Modelled from the spec (section 4.4): the pipeline in the order the spec
states it, normalize before segment.  Used to compare with the code order. -/
def assembleNormalizeFirst (t : List Char) : List Record :=
  ((find_baugesuch_sections (fixEncoding t)).map parse_baugesuch).filter anyValues

/-! ### C5: idempotence of the mojibake repair -/

theorem hasPair_cons_eq (a b z : Char) (l : List Char) :
    hasPair a b (z :: l) =
      ((match l.head? with
        | some w => z == a && w == b
        | none => false) || hasPair a b l) := by
  cases l <;> rfl

theorem hasPair_tail {a b x : Char} {l : List Char}
    (h : hasPair a b (x :: l) = false) : hasPair a b l = false := by
  cases l with
  | nil => rfl
  | cons y t =>
    have h' : ((x == a && y == b) || hasPair a b (y :: t)) = false := h
    exact (Bool.or_eq_false_iff.mp h').2

theorem replace2_id (a b c : Char) :
    ∀ s : List Char, hasPair a b s = false → replace2 a b c s = s
  | [], _ => rfl
  | [_], _ => rfl
  | x :: y :: rest, h => by
    have h' : ((x == a && y == b) || hasPair a b (y :: rest)) = false := h
    obtain ⟨h1, h2⟩ := Bool.or_eq_false_iff.mp h'
    have hxy : ¬(x = a ∧ y = b) := by
      rintro ⟨rfl, rfl⟩
      simp at h1
    show (if x = a ∧ y = b then c :: replace2 a b c rest
          else x :: replace2 a b c (y :: rest)) = x :: y :: rest
    rw [if_neg hxy, replace2_id a b c (y :: rest) h2]

theorem replace2_head (a b c : Char) (s : List Char) :
    (replace2 a b c s).head? = s.head? ∨ (replace2 a b c s).head? = some c := by
  match s with
  | [] => exact Or.inl rfl
  | [x] => exact Or.inl rfl
  | x :: y :: rest =>
    by_cases hxy : x = a ∧ y = b
    · right
      show (if x = a ∧ y = b then c :: replace2 a b c rest
            else x :: replace2 a b c (y :: rest)).head? = some c
      rw [if_pos hxy]
      rfl
    · left
      show (if x = a ∧ y = b then c :: replace2 a b c rest
            else x :: replace2 a b c (y :: rest)).head? = (x :: y :: rest).head?
      rw [if_neg hxy]
      rfl

theorem hasPair_replace2 (a b c : Char) (hca : c ≠ a) (hcb : c ≠ b) :
    ∀ s : List Char, hasPair a b (replace2 a b c s) = false
  | [] => rfl
  | [_] => rfl
  | x :: y :: rest => by
    by_cases hxy : x = a ∧ y = b
    · have ih := hasPair_replace2 a b c hca hcb rest
      show hasPair a b (if x = a ∧ y = b then c :: replace2 a b c rest
            else x :: replace2 a b c (y :: rest)) = false
      rw [if_pos hxy, hasPair_cons_eq]
      cases hh : (replace2 a b c rest).head? with
      | none => simp [ih]
      | some w => simp [ih, hca]
    · have ih := hasPair_replace2 a b c hca hcb (y :: rest)
      show hasPair a b (if x = a ∧ y = b then c :: replace2 a b c rest
            else x :: replace2 a b c (y :: rest)) = false
      rw [if_neg hxy, hasPair_cons_eq]
      rcases replace2_head a b c (y :: rest) with hh | hh
      · rw [hh]
        have hxy' : (x == a && y == b) = false := by
          by_cases hxa : x = a
          · subst hxa
            have hyb : ¬ y = b := fun hb => hxy ⟨rfl, hb⟩
            simp [hyb]
          · simp [hxa]
        simp [ih, hxy']
      · rw [hh]
        simp [ih, hcb]

theorem hasPair_replace2_other (a b c a2 b2 : Char)
    (hca : c ≠ a2) (hcb : c ≠ b2) :
    ∀ s : List Char, hasPair a2 b2 s = false →
      hasPair a2 b2 (replace2 a b c s) = false
  | [], _ => rfl
  | [_], _ => rfl
  | x :: y :: rest, h => by
    have h' : ((x == a2 && y == b2) || hasPair a2 b2 (y :: rest)) = false := h
    obtain ⟨h1, h2⟩ := Bool.or_eq_false_iff.mp h'
    by_cases hxy : x = a ∧ y = b
    · have ih := hasPair_replace2_other a b c a2 b2 hca hcb rest (hasPair_tail h2)
      show hasPair a2 b2 (if x = a ∧ y = b then c :: replace2 a b c rest
            else x :: replace2 a b c (y :: rest)) = false
      rw [if_pos hxy, hasPair_cons_eq]
      cases hh : (replace2 a b c rest).head? with
      | none => simp [ih]
      | some w => simp [ih, hca]
    · have ih := hasPair_replace2_other a b c a2 b2 hca hcb (y :: rest) h2
      show hasPair a2 b2 (if x = a ∧ y = b then c :: replace2 a b c rest
            else x :: replace2 a b c (y :: rest)) = false
      rw [if_neg hxy, hasPair_cons_eq]
      rcases replace2_head a b c (y :: rest) with hh | hh
      · rw [hh]
        simp [ih, h1]
      · rw [hh]
        simp [ih, hcb]

theorem noPairUe (s : List Char) : hasPair chA3 chOE (fixEncoding s) = false := by
  unfold fixEncoding
  apply hasPair_replace2_other _ _ _ _ _ (by decide) (by decide)
  apply hasPair_replace2_other _ _ _ _ _ (by decide) (by decide)
  apply hasPair_replace2_other _ _ _ _ _ (by decide) (by decide)
  apply hasPair_replace2_other _ _ _ _ _ (by decide) (by decide)
  apply hasPair_replace2_other _ _ _ _ _ (by decide) (by decide)
  apply hasPair_replace2_other _ _ _ _ _ (by decide) (by decide)
  apply hasPair_replace2_other _ _ _ _ _ (by decide) (by decide)
  exact hasPair_replace2 _ _ _ (by decide) (by decide) s

theorem noPairAe (s : List Char) : hasPair chA3 chCur (fixEncoding s) = false := by
  unfold fixEncoding
  apply hasPair_replace2_other _ _ _ _ _ (by decide) (by decide)
  apply hasPair_replace2_other _ _ _ _ _ (by decide) (by decide)
  apply hasPair_replace2_other _ _ _ _ _ (by decide) (by decide)
  apply hasPair_replace2_other _ _ _ _ _ (by decide) (by decide)
  apply hasPair_replace2_other _ _ _ _ _ (by decide) (by decide)
  apply hasPair_replace2_other _ _ _ _ _ (by decide) (by decide)
  exact hasPair_replace2 _ _ _ (by decide) (by decide) _

theorem noPairOe (s : List Char) : hasPair chA3 chPil (fixEncoding s) = false := by
  unfold fixEncoding
  apply hasPair_replace2_other _ _ _ _ _ (by decide) (by decide)
  apply hasPair_replace2_other _ _ _ _ _ (by decide) (by decide)
  apply hasPair_replace2_other _ _ _ _ _ (by decide) (by decide)
  apply hasPair_replace2_other _ _ _ _ _ (by decide) (by decide)
  apply hasPair_replace2_other _ _ _ _ _ (by decide) (by decide)
  exact hasPair_replace2 _ _ _ (by decide) (by decide) _

theorem noPairOO (s : List Char) : hasPair chA3 chDash (fixEncoding s) = false := by
  unfold fixEncoding
  apply hasPair_replace2_other _ _ _ _ _ (by decide) (by decide)
  apply hasPair_replace2_other _ _ _ _ _ (by decide) (by decide)
  apply hasPair_replace2_other _ _ _ _ _ (by decide) (by decide)
  apply hasPair_replace2_other _ _ _ _ _ (by decide) (by decide)
  exact hasPair_replace2 _ _ _ (by decide) (by decide) _

theorem noPairAA (s : List Char) : hasPair chA3 chLowQ (fixEncoding s) = false := by
  unfold fixEncoding
  apply hasPair_replace2_other _ _ _ _ _ (by decide) (by decide)
  apply hasPair_replace2_other _ _ _ _ _ (by decide) (by decide)
  apply hasPair_replace2_other _ _ _ _ _ (by decide) (by decide)
  exact hasPair_replace2 _ _ _ (by decide) (by decide) _

theorem noPairEe (s : List Char) : hasPair chA3 chCopy (fixEncoding s) = false := by
  unfold fixEncoding
  apply hasPair_replace2_other _ _ _ _ _ (by decide) (by decide)
  apply hasPair_replace2_other _ _ _ _ _ (by decide) (by decide)
  exact hasPair_replace2 _ _ _ (by decide) (by decide) _

theorem noPairGr (s : List Char) : hasPair chA3 chDia (fixEncoding s) = false := by
  unfold fixEncoding
  apply hasPair_replace2_other _ _ _ _ _ (by decide) (by decide)
  exact hasPair_replace2 _ _ _ (by decide) (by decide) _

theorem noPairAgr (s : List Char) : hasPair chA3 ' ' (fixEncoding s) = false := by
  unfold fixEncoding
  exact hasPair_replace2 _ _ _ (by decide) (by decide) _

/-- C5.  The mojibake repair is idempotent: applying the fixed ordered
substitution table of parse_baugesuch twice yields the same result as
applying it once, for every input string. -/
theorem c5_normalize_idempotent (s : List Char) :
    fixEncoding (fixEncoding s) = fixEncoding s := by
  conv_lhs => rw [fixEncoding]
  rw [replace2_id chA3 chOE chUU (fixEncoding s) (noPairUe s),
      replace2_id chA3 chCur chae (fixEncoding s) (noPairAe s),
      replace2_id chA3 chPil choe2 (fixEncoding s) (noPairOe s),
      replace2_id chA3 chDash chOO (fixEncoding s) (noPairOO s),
      replace2_id chA3 chLowQ chAA (fixEncoding s) (noPairAA s),
      replace2_id chA3 chCopy chee (fixEncoding s) (noPairEe s),
      replace2_id chA3 chDia chgr (fixEncoding s) (noPairGr s),
      replace2_id chA3 ' ' chagr (fixEncoding s) (noPairAgr s)]

/-! ### C7: the end-to-end scenario -/

/-- C7.  On the spec's end-to-end input the pipeline produces exactly one
record with Baugesuch_Nr 123, Bauherrschaft A. Muster, Bauvorhaben Neubau,
Lage Musterstrasse 1, Würenlos, Zone W2, no Zusatzgesuch, and others
Gesuchsauflage bis 30 Tage. -/
theorem c7_end_to_end :
    assemble ("Baugesuchspublikation\nBaugesuchNr.: 123\nBauherrschaft: A. Muster\nBauvorhaben: Neubau\nLage: Musterstrasse 1, W".data
        ++ [chuu] ++ "renlos\nZone: W2\nGesuchsauflage bis 30 Tage\nBAUVERWALTUNGW".data
        ++ [chUU] ++ "RENLOS".data) =
      [{ Baugesuch_Nr := some "123".data
         Bauherrschaft := some "A. Muster".data
         Bauvorhaben := some "Neubau".data
         Lage := some ("Musterstrasse 1, W".data ++ [chuu] ++ "renlos".data)
         Zone := some "W2".data
         Zusatzgesuch := none
         others := some "Gesuchsauflage bis 30 Tage".data }] := by
  decide

/-! ### Counterexamples for C1, C3, C4, C6 -/

/-- C1 counterexample.  The assembled output is not the normalize-first
composition: on a page whose only locality occurrence is the mojibake form
WÃœrenlos, the code produces no record (the locality filter runs on raw
text), while the normalize-then-segment composition of the claim produces
one record. -/
theorem c1_cex :
    assemble ("Baugesuchspublikation Lage: W".data ++ [chA3, chOE] ++ "renlos".data) = []
    ∧ assembleNormalizeFirst
        ("Baugesuchspublikation Lage: W".data ++ [chA3, chOE] ++ "renlos".data) =
      [{ Baugesuch_Nr := none
         Bauherrschaft := none
         Bauvorhaben := none
         Lage := some ("W".data ++ [chUU] ++ "renlos".data)
         Zone := none
         Zusatzgesuch := none
         others := none }] := by
  constructor
  · decide
  · decide

/-- C3 counterexample.  The Bauvorhaben value of a section in which the
accepted line is immediately followed by the Zusatzgesuch header line does
include that header line: Zusatzgesuch is a recognized field header but is
missing from the Bauvorhaben walk's reject set. -/
theorem c3_cex :
    (parse_baugesuch "Bauvorhaben: X\nZusatzgesuch: Y".data).Bauvorhaben =
      some "X Zusatzgesuch: Y".data
    ∧ containsCS "Zusatzgesuch:".data "X Zusatzgesuch: Y".data = true := by
  constructor
  · decide
  · decide

/-- C4 counterexample.  A piece passing the locality filter and containing
the terminator only in the mixed-case variant Bauverwaltung is emitted
whole with the canonical terminator appended, not truncated at the variant
occurrence as the claim states for every case variant. -/
theorem c4_cex :
    find_baugesuch_sections
        ("Baugesuchspublikation W".data ++ [chuu] ++ "renlos xx Bauverwaltung yy".data) =
      [("Baugesuchspublikation W".data ++ [chuu] ++ "renlos xx Bauverwaltung yy".data)
        ++ canonTerm]
    ∧ ("Baugesuchspublikation W".data ++ [chuu] ++ "renlos xx Bauverwaltung yy".data)
        ++ canonTerm ≠
      ("Baugesuchspublikation W".data ++ [chuu] ++ "renlos xx ".data) ++ canonTerm := by
  constructor
  · decide
  · decide

/-- C6 counterexample.  A Bauherrschaft value keeps the internal double
space of its accepted line: the line-accumulated fields do not collapse
internal whitespace runs, contrary to the claim. -/
theorem c6_cex :
    (parse_baugesuch "Bauherrschaft: A.  Muster\nBauvorhaben: x".data).Bauherrschaft =
      some "A.  Muster".data
    ∧ collapseWS "A.  Muster".data = "A. Muster".data
    ∧ "A.  Muster".data ≠ "A. Muster".data := by
  refine ⟨by decide, by decide, by decide⟩

/-! ### C8: truncation of the catch-all field -/

/-- C8.  For every section, when the whitespace-collapsed catch-all capture
v exists, the emitted others value is trunc500 v; a capture longer than 500
characters becomes exactly its first 500 characters plus the 3-character
ellipsis (total length 503), and a capture of exactly 500 characters is
returned unchanged. -/
theorem c8_others_truncation (s v : List Char) (h : othersRaw s = some v) :
    (parseFields s).others = some (trunc500 v)
    ∧ (500 < v.length →
        trunc500 v = v.take 500 ++ "...".data ∧ (trunc500 v).length = 503)
    ∧ (v.length = 500 → trunc500 v = v) := by
  refine ⟨?_, ?_, ?_⟩
  · show (othersRaw s).map trunc500 = some (trunc500 v)
    rw [h]
    rfl
  · intro hlen
    refine ⟨by rw [trunc500, if_pos hlen], ?_⟩
    rw [trunc500, if_pos hlen, List.length_append, List.length_take]
    have : "...".data.length = 3 := rfl
    omega
  · intro hlen
    rw [trunc500, if_neg (by omega)]

/-- Witness for C8 at a concrete 501-character capture. -/
theorem c8_others_truncation_witness :
    (parseFields ("Gesuchsauflage".data ++ List.replicate 487 'b')).others =
      some (trunc500 ("Gesuchsauflage".data ++ List.replicate 487 'b'))
    ∧ (trunc500 ("Gesuchsauflage".data ++ List.replicate 487 'b')).length = 503 := by
  have h := c8_others_truncation ("Gesuchsauflage".data ++ List.replicate 487 'b')
      ("Gesuchsauflage".data ++ List.replicate 487 'b') (by decide)
  exact ⟨h.1, (h.2.1 (by decide)).2⟩

/-! ### C9: absence is data, not error -/

theorem searchHeader_none {hdr : List Char} :
    ∀ {s : List Char}, hasCI hdr s = false → searchHeader hdr s = none
  | [], _ => rfl
  | c :: rest, h => by
    have h' : (iStarts hdr (c :: rest) || hasCI hdr rest) = false := h
    obtain ⟨h1, h2⟩ := Bool.or_eq_false_iff.mp h'
    simp [searchHeader, h1, searchHeader_none h2]

theorem searchHeaderKeep_none {hdr : List Char} :
    ∀ {s : List Char}, hasCI hdr s = false → searchHeaderKeep hdr s = none
  | [], _ => rfl
  | c :: rest, h => by
    have h' : (iStarts hdr (c :: rest) || hasCI hdr rest) = false := h
    obtain ⟨h1, h2⟩ := Bool.or_eq_false_iff.mp h'
    simp [searchHeaderKeep, h1, searchHeaderKeep_none h2]

theorem searchNr_none :
    ∀ {s : List Char}, hasCI "baugesuchnr".data s = false → searchNr s = none
  | [], _ => rfl
  | c :: rest, h => by
    have h' : (iStarts "baugesuchnr".data (c :: rest) ||
        hasCI "baugesuchnr".data rest) = false := h
    obtain ⟨h1, h2⟩ := Bool.or_eq_false_iff.mp h'
    have hm : matchNrAt (c :: rest) = none := by
      simp [matchNrAt, h1]
    simp [searchNr, hm, searchNr_none h2]

theorem lineFieldLines_none {hdr : List Char} (terms : List (List Char))
    (reject : List Char → Bool) {s : List Char} (h : hasCI hdr s = false) :
    lineFieldLines hdr terms reject s = none := by
  simp [lineFieldLines, searchHeader_none h]

theorem isplit1_none {pat : List Char} :
    ∀ {s : List Char}, hasCI pat s = false → isplit1 pat s = none
  | [], _ => rfl
  | c :: rest, h => by
    have h' : (iStarts pat (c :: rest) || hasCI pat rest) = false := h
    obtain ⟨h1, h2⟩ := Bool.or_eq_false_iff.mp h'
    simp [isplit1, h1, isplit1_none h2]

/-- C9.  Not-found conditions never fail: a page without the header token
segments to the empty list, and a section without a given field's header
token yields a record in which that field is simply absent. -/
theorem c9_absence_is_data (t s : List Char) :
    (hasCI bTok t = false → find_baugesuch_sections t = [])
    ∧ (hasCI "baugesuchnr".data s = false → (parseFields s).Baugesuch_Nr = none)
    ∧ (hasCI "bauherrschaft".data s = false → (parseFields s).Bauherrschaft = none)
    ∧ (hasCI "bauvorhaben".data s = false → (parseFields s).Bauvorhaben = none)
    ∧ (hasCI "lage".data s = false → (parseFields s).Lage = none)
    ∧ (hasCI "zone".data s = false → (parseFields s).Zone = none)
    ∧ (hasCI "zusatzgesuch".data s = false → (parseFields s).Zusatzgesuch = none)
    ∧ (hasCI "gesuchsauflage".data s = false → (parseFields s).others = none) := by
  refine ⟨?_, ?_, ?_, ?_, ?_, ?_, ?_, ?_⟩
  · intro h
    show (pieces t).filterMap _ = []
    rw [pieces, isplit1_none h]
    rfl
  · intro h
    show searchNr s = none
    exact searchNr_none h
  · intro h
    show (lineFieldLines "bauherrschaft".data _ _ s).map _ = none
    rw [lineFieldLines_none _ _ h]
    rfl
  · intro h
    show (lineFieldLines "bauvorhaben".data _ _ s).map _ = none
    rw [lineFieldLines_none _ _ h]
    rfl
  · intro h
    show (lineFieldLines "lage".data _ _ s).map _ = none
    rw [lineFieldLines_none _ _ h]
    rfl
  · intro h
    show (lineFieldLines "zone".data _ _ s).map _ = none
    rw [lineFieldLines_none _ _ h]
    rfl
  · intro h
    show (lineFieldLines "zusatzgesuch".data _ _ s).map _ = none
    rw [lineFieldLines_none _ _ h]
    rfl
  · intro h
    show (othersRaw s).map trunc500 = none
    rw [othersRaw, searchHeaderKeep_none h]
    rfl

/-- Witness for C9 at a concrete token-free text. -/
theorem c9_absence_is_data_witness :
    find_baugesuch_sections "xyz".data = [] ∧ (parseFields "xyz".data).Lage = none := by
  have h := c9_absence_is_data "xyz".data "xyz".data
  exact ⟨h.1 (by decide), h.2.2.2.2.1 (by decide)⟩

/-! ### Strip, collapse and join lemmas -/

theorem dropWhile_idem (p : Char → Bool) (l : List Char) :
    (l.dropWhile p).dropWhile p = l.dropWhile p := by
  induction l with
  | nil => rfl
  | cons c rest ih =>
    by_cases h : p c
    · simp [List.dropWhile_cons, h, ih]
    · simp [List.dropWhile_cons, h]

theorem dropWhile_of_head {p : Char → Bool} {c : Char} {l : List Char}
    (h : p c = false) : (c :: l).dropWhile p = c :: l := by
  simp [List.dropWhile_cons, h]

theorem getLast?_dropWhile (p : Char → Bool) :
    ∀ w : List Char, w.dropWhile p ≠ [] → (w.dropWhile p).getLast? = w.getLast?
  | [], h => absurd rfl h
  | c :: rest, h => by
    by_cases hc : p c
    · rw [List.dropWhile_cons, if_pos hc] at h ⊢
      rcases rest with _ | ⟨d, t⟩
      · exact absurd rfl h
      · rw [getLast?_dropWhile p (d :: t) h, List.getLast?_cons_cons]
    · rw [List.dropWhile_cons, if_neg hc]

theorem dropWhile_head_false (p : Char → Bool) :
    ∀ (w : List Char) {c : Char} {rest : List Char},
      w.dropWhile p = c :: rest → p c = false
  | [], _, _, h => by cases h
  | x :: t, c, rest, h => by
    by_cases hx : p x
    · rw [List.dropWhile_cons, if_pos hx] at h
      exact dropWhile_head_false p t h
    · rw [List.dropWhile_cons, if_neg hx] at h
      cases h
      exact Bool.of_not_eq_true hx

/-- A stripped string has no leading whitespace. -/
theorem strip_shape_dropWhile (p : Char → Bool) (l : List Char) :
    (((l.dropWhile p).reverse.dropWhile p).reverse).dropWhile p
      = ((l.dropWhile p).reverse.dropWhile p).reverse := by
  rcases hv : (l.dropWhile p).reverse.dropWhile p with _ | ⟨c, v⟩
  · rfl
  · have hvne : (l.dropWhile p).reverse.dropWhile p ≠ [] := by
      rw [hv]
      exact List.cons_ne_nil c v
    have hrevne : (l.dropWhile p).reverse ≠ [] := by
      intro h0
      rw [h0] at hv
      cases hv
    obtain ⟨h0, t0, ht0⟩ : ∃ h0 t0, l.dropWhile p = h0 :: t0 := by
      rcases hl : l.dropWhile p with _ | ⟨h0, t0⟩
      · rw [hl] at hrevne
        exact absurd rfl hrevne
      · exact ⟨h0, t0, rfl⟩
    have hph0 : p h0 = false := dropWhile_head_false p l ht0
    have hlast2 : (c :: v).getLast? = some h0 := by
      rw [← hv, getLast?_dropWhile p _ hvne, List.getLast?_reverse, ht0]
      rfl
    have hhead : ((c :: v).reverse).head? = some h0 := by
      rw [List.head?_reverse, hlast2]
    rcases hr : (c :: v).reverse with _ | ⟨z, zz⟩
    · exfalso
      have := congrArg List.reverse hr
      simp at this
    · rw [hr] at hhead
      injection hhead with hzc
      exact dropWhile_of_head (by rw [hzc]; exact hph0)

/-- Stripping is idempotent (Python strip of a stripped string). -/
theorem pyStrip_idem (l : List Char) : pyStrip (pyStrip l) = pyStrip l := by
  show (((pyStrip l).dropWhile pySpace).reverse.dropWhile pySpace).reverse = pyStrip l
  rw [show (pyStrip l).dropWhile pySpace = pyStrip l from strip_shape_dropWhile pySpace l]
  show ((((l.dropWhile pySpace).reverse.dropWhile pySpace).reverse).reverse.dropWhile
      pySpace).reverse = pyStrip l
  rw [List.reverse_reverse, dropWhile_idem]
  rfl

theorem takeLines_mem {reject : List Char → Bool} :
    ∀ {ls : List (List Char)} {l : List Char}, l ∈ takeLines reject ls →
      l ≠ [] ∧ reject l = false ∧ pyStrip l = l
  | [], l, h => absurd h (List.not_mem_nil l)
  | l0 :: ls, l, h => by
    rw [takeLines] at h
    split at h
    · rename_i hcond
      rcases List.mem_cons.mp h with rfl | hmem
      · exact ⟨hcond.1, hcond.2, pyStrip_idem l0⟩
      · exact takeLines_mem hmem
    · cases h

theorem pyJoin_ne (sep : List Char) :
    ∀ ls : List (List Char), ls ≠ [] → (∀ l ∈ ls, l ≠ []) → pyJoin sep ls ≠ []
  | [], h, _ => absurd rfl h
  | [l], _, hm => by
    have := hm l (List.mem_singleton.mpr rfl)
    simpa [pyJoin] using this
  | l :: l2 :: t, _, hm => by
    have hl : l ≠ [] := hm l (List.mem_cons_self l _)
    rcases l with _ | ⟨c, l'⟩
    · exact absurd rfl hl
    · intro h
      rw [pyJoin] at h
      cases h

theorem lineFieldLines_some {hdr : List Char} {terms : List (List Char)}
    {reject : List Char → Bool} {s : List Char} {ls : List (List Char)}
    (h : lineFieldLines hdr terms reject s = some ls) :
    ls ≠ [] ∧ ∀ l ∈ ls, l ≠ [] ∧ reject l = false ∧ pyStrip l = l := by
  rcases hsh : searchHeader hdr s with _ | after
  · rw [lineFieldLines, hsh] at h
    cases h
  · rw [lineFieldLines, hsh] at h
    have h2 : (if fieldLinesRaw terms reject after = [] then none
        else some (fieldLinesRaw terms reject after)) = some ls := h
    by_cases hnil : fieldLinesRaw terms reject after = []
    · rw [if_pos hnil] at h2
      cases h2
    · rw [if_neg hnil] at h2
      injection h2 with h'
      subst h'
      exact ⟨hnil, fun l hl => takeLines_mem hl⟩

/-! ### Nonemptiness of extracted values -/

theorem matchNrAt_ne : ∀ {s d : List Char}, matchNrAt s = some d → d ≠ [] := by
  intro s d h
  rw [matchNrAt] at h
  by_cases hi : iStarts "baugesuchnr".data s
  · rw [if_pos hi] at h
    by_cases hd : nrDigits s = []
    · rw [if_pos hd] at h
      cases h
    · rw [if_neg hd] at h
      injection h with h'
      subst h'
      exact hd
  · rw [if_neg hi] at h
    cases h

theorem searchNr_ne : ∀ {s d : List Char}, searchNr s = some d → d ≠ []
  | [], _, h => by cases h
  | c :: rest, d, h => by
    rw [searchNr] at h
    rcases hm : matchNrAt (c :: rest) with _ | d0
    · rw [hm] at h
      exact searchNr_ne h
    · rw [hm] at h
      cases h
      exact matchNrAt_ne hm

theorem iStarts_eq {pat s : List Char} (h : iStarts pat s = true) :
    (s.take pat.length).map lowerC = pat := by
  rw [iStarts] at h
  exact eq_of_beq h

theorem searchHeaderKeep_some {hdr : List Char} :
    ∀ {s m after : List Char}, searchHeaderKeep hdr s = some (m, after) →
      m.map lowerC = hdr
  | [], _, _, h => by cases h
  | c :: rest, m, after, h => by
    rw [searchHeaderKeep] at h
    split at h
    · rename_i hst
      cases h
      exact iStarts_eq hst
    · exact searchHeaderKeep_some h

theorem pySpace_notUpper {c : Char} (h : pySpace c = true) :
    ¬(65 ≤ c.toNat ∧ c.toNat ≤ 90) := by
  simp only [pySpace, Bool.or_eq_true, decide_eq_true_eq] at h
  omega

theorem lowerC_fix_of_space {c : Char} (h : pySpace c = true) : lowerC c = c := by
  rw [lowerC, if_neg (pySpace_notUpper h)]

theorem notSpace_of_lowerC_g {c : Char} (h : lowerC c = 'g') : pySpace c = false := by
  rcases Bool.eq_false_or_eq_true (pySpace c) with h' | h'
  · have h2 : c = 'g' := by rw [← lowerC_fix_of_space h', h]
    rw [h2] at h'
    exact absurd h' (by decide)
  · exact h'

theorem dropWhile_snoc_ne {p : Char → Bool} {c : Char} (hc : p c = false) :
    ∀ u : List Char, (u ++ [c]).dropWhile p ≠ []
  | [] => by
    rw [List.nil_append]
    rw [dropWhile_of_head hc]
    exact List.cons_ne_nil c []
  | x :: u => by
    by_cases hx : p x
    · rw [List.cons_append, List.dropWhile_cons, if_pos hx]
      exact dropWhile_snoc_ne hc u
    · rw [List.cons_append, List.dropWhile_cons, if_neg hx]
      exact List.cons_ne_nil _ _

theorem pyStrip_cons_ne {c : Char} {y : List Char} (hc : pySpace c = false) :
    pyStrip (c :: y) ≠ [] := by
  rw [pyStrip, dropWhile_of_head hc]
  intro h
  have h2 : ((c :: y).reverse).dropWhile pySpace = [] := by
    have := congrArg List.reverse h
    simpa using this
  have h3 : (y.reverse ++ [c]).dropWhile pySpace = [] := by
    rw [← List.reverse_cons]
    exact h2
  exact dropWhile_snoc_ne hc y.reverse h3

theorem pyStrip_cons_head {c : Char} {y : List Char} (hc : pySpace c = false) :
    ∃ z, pyStrip (c :: y) = c :: z := by
  have hne := @pyStrip_cons_ne c y hc
  rw [pyStrip, dropWhile_of_head hc] at hne ⊢
  set v := ((c :: y).reverse).dropWhile pySpace with hv
  obtain ⟨u, hu⟩ : ∃ u, u ++ v = (c :: y).reverse :=
    ⟨(c :: y).reverse.takeWhile pySpace,
      List.takeWhile_append_dropWhile pySpace (c :: y).reverse⟩
  have hrev : c :: y = v.reverse ++ u.reverse := by
    have := congrArg List.reverse hu
    simpa using this.symm
  rcases hvr : v.reverse with _ | ⟨z, zz⟩
  · exact absurd (by simpa using congrArg List.reverse hvr) hne
  · rw [hvr] at hrev
    rw [List.cons_append] at hrev
    injection hrev with h1 h2
    exact ⟨zz, by rw [h1]⟩

theorem collapseAux_cons_ne {c : Char} {y : List Char} (hc : pySpace c = false) :
    collapseAux false (c :: y) ≠ [] := by
  rw [collapseAux, if_neg (by rw [hc]; exact fun h => Bool.noConfusion h)]
  exact List.cons_ne_nil _ _

theorem trunc500_ne {v : List Char} (h : v ≠ []) : trunc500 v ≠ [] := by
  rw [trunc500]
  split
  · intro hcon
    have hlen := congrArg List.length hcon
    rw [List.length_append] at hlen
    have h3 : ("...".data).length = 3 := rfl
    rw [h3] at hlen
    simp at hlen
  · exact h

theorem othersRaw_ne : ∀ {s v : List Char}, othersRaw s = some v → v ≠ [] := by
  intro s v h
  rw [othersRaw] at h
  rcases hk : searchHeaderKeep "gesuchsauflage".data s with _ | ⟨m, after⟩
  · rw [hk] at h
    cases h
  · rw [hk] at h
    have hm := searchHeaderKeep_some hk
    obtain ⟨c, m', rfl⟩ : ∃ c m', m = c :: m' := by
      rcases m with _ | ⟨c, m'⟩
      · cases hm
      · exact ⟨c, m', rfl⟩
    have hlc : lowerC c = 'g' := by
      have := congrArg List.head? hm
      simpa using this
    have hcs : pySpace c = false := notSpace_of_lowerC_g hlc
    cases h
    obtain ⟨z, hz⟩ := @pyStrip_cons_head c (m' ++ takeUntilTerm ["bauverwaltung".data] after) hcs
    show collapseWS (pyStrip ((c :: m') ++ takeUntilTerm ["bauverwaltung".data] after)) ≠ []
    rw [List.cons_append, hz]
    exact collapseAux_cons_ne hcs

/-- C10.  Every value present in a parsed record is a non-empty string, and
therefore the assembly filter any(data.values()) is equivalent to the record
having at least one key. -/
theorem c10_values_nonempty (s : List Char) :
    (∀ v ∈ recordValues (parse_baugesuch s), v ≠ [])
    ∧ (anyValues (parse_baugesuch s) = true ↔ recordValues (parse_baugesuch s) ≠ []) := by
  have hmain : ∀ v ∈ recordValues (parse_baugesuch s), v ≠ [] := by
    intro v hv
    rw [recordValues, List.mem_filterMap] at hv
    obtain ⟨a, ha, hid⟩ := hv
    have ha2 : a = some v := hid
    subst ha2
    simp only [List.mem_cons, List.not_mem_nil, or_false] at ha
    rcases ha with h1 | h2 | h3 | h4 | h5 | h6 | h7
    · exact searchNr_ne h1.symm
    · obtain ⟨ls, hls, hjoin⟩ := Option.map_eq_some'.mp h2.symm
      obtain ⟨hne, hmem⟩ := lineFieldLines_some hls
      rw [← hjoin]
      exact pyJoin_ne _ ls hne fun l hl => (hmem l hl).1
    · obtain ⟨ls, hls, hjoin⟩ := Option.map_eq_some'.mp h3.symm
      obtain ⟨hne, hmem⟩ := lineFieldLines_some hls
      rw [← hjoin]
      exact pyJoin_ne _ ls hne fun l hl => (hmem l hl).1
    · obtain ⟨ls, hls, hjoin⟩ := Option.map_eq_some'.mp h4.symm
      obtain ⟨hne, hmem⟩ := lineFieldLines_some hls
      rw [← hjoin]
      exact pyJoin_ne _ ls hne fun l hl => (hmem l hl).1
    · obtain ⟨ls, hls, hjoin⟩ := Option.map_eq_some'.mp h5.symm
      obtain ⟨hne, hmem⟩ := lineFieldLines_some hls
      rcases ls with _ | ⟨l0, lt⟩
      · exact absurd rfl hne
      · rw [← hjoin]
        exact (hmem l0 (List.mem_cons_self l0 lt)).1
    · obtain ⟨ls, hls, hjoin⟩ := Option.map_eq_some'.mp h6.symm
      obtain ⟨hne, hmem⟩ := lineFieldLines_some hls
      rw [← hjoin]
      exact pyJoin_ne _ ls hne fun l hl => (hmem l hl).1
    · obtain ⟨v0, hv0, htr⟩ := Option.map_eq_some'.mp h7.symm
      rw [← htr]
      exact trunc500_ne (othersRaw_ne hv0)
  refine ⟨hmain, ?_⟩
  constructor
  · intro hany hnil
    rw [anyValues, hnil] at hany
    cases hany
  · intro hne
    rcases hl : recordValues (parse_baugesuch s) with _ | ⟨v, t⟩
    · exact absurd hl hne
    · have hv : v ≠ [] := hmain v (by rw [hl]; exact List.mem_cons_self v t)
      rcases v with _ | ⟨c0, vt⟩
      · exact absurd rfl hv
      · rw [anyValues, hl]
        simp [List.any_cons]

/-- Witness for C10 at a concrete section with one populated field. -/
theorem c10_values_nonempty_witness :
    "123".data ≠ []
    ∧ (anyValues (parse_baugesuch "BaugesuchNr: 123".data) = true ↔
        recordValues (parse_baugesuch "BaugesuchNr: 123".data) ≠ []) := by
  have h := c10_values_nonempty "BaugesuchNr: 123".data
  exact ⟨h.1 "123".data (by decide), h.2⟩

/-! ### C3 amended: the actual per-field reject sets -/

/-- C3 amended (the claim as the code implements it).  Every line-accumulated
value is a join of accepted lines none of which begins with a token of that
field's own reject set (Bauherrschaft: Bauvorhaben/Lage/Zone/Zusatzgesuch;
Bauvorhaben: Lage/Zone/Bauherrschaft; Lage: Zone/Zusatzgesuch; Zone:
Zusatzgesuch/Gesuchsauflage; Zusatzgesuch: Gesuchsauflage).  Header tokens
outside the listed set, though recognized for other fields, are not excluded
(see the counterexample). -/
theorem c3_reject_sets (s : List Char) :
    (∀ v, (parse_baugesuch s).Bauherrschaft = some v →
      ∃ ls, ls ≠ [] ∧ v = pyJoin [','] ls ∧ ∀ l ∈ ls, l ≠ [] ∧ rejHerr l = false)
    ∧ (∀ v, (parse_baugesuch s).Bauvorhaben = some v →
      ∃ ls, ls ≠ [] ∧ v = pyJoin [' '] ls ∧ ∀ l ∈ ls, l ≠ [] ∧ rejVor l = false)
    ∧ (∀ v, (parse_baugesuch s).Lage = some v →
      ∃ ls, ls ≠ [] ∧ v = pyJoin [','] ls ∧ ∀ l ∈ ls, l ≠ [] ∧ rejLage l = false)
    ∧ (∀ v, (parse_baugesuch s).Zone = some v → v ≠ [] ∧ rejZone v = false)
    ∧ (∀ v, (parse_baugesuch s).Zusatzgesuch = some v →
      ∃ ls, ls ≠ [] ∧ v = pyJoin [','] ls ∧ ∀ l ∈ ls, l ≠ [] ∧ rejZus l = false) := by
  refine ⟨?_, ?_, ?_, ?_, ?_⟩
  · intro v hv
    have hv2 : (lineFieldLines "bauherrschaft".data ["bauvorhaben:".data] rejHerr
        (fixEncoding s)).map (pyJoin [',']) = some v := hv
    obtain ⟨ls, hls, hjoin⟩ := Option.map_eq_some'.mp hv2
    obtain ⟨hne, hmem⟩ := lineFieldLines_some hls
    exact ⟨ls, hne, hjoin.symm, fun l hl => ⟨(hmem l hl).1, (hmem l hl).2.1⟩⟩
  · intro v hv
    have hv2 : (lineFieldLines "bauvorhaben".data ["lage:".data] rejVor
        (fixEncoding s)).map (pyJoin [' ']) = some v := hv
    obtain ⟨ls, hls, hjoin⟩ := Option.map_eq_some'.mp hv2
    obtain ⟨hne, hmem⟩ := lineFieldLines_some hls
    exact ⟨ls, hne, hjoin.symm, fun l hl => ⟨(hmem l hl).1, (hmem l hl).2.1⟩⟩
  · intro v hv
    have hv2 : (lineFieldLines "lage".data ["zone:".data] rejLage
        (fixEncoding s)).map (pyJoin [',']) = some v := hv
    obtain ⟨ls, hls, hjoin⟩ := Option.map_eq_some'.mp hv2
    obtain ⟨hne, hmem⟩ := lineFieldLines_some hls
    exact ⟨ls, hne, hjoin.symm, fun l hl => ⟨(hmem l hl).1, (hmem l hl).2.1⟩⟩
  · intro v hv
    have hv2 : (lineFieldLines "zone".data ["zusatzgesuch:".data] rejZone
        (fixEncoding s)).map (fun ls => ls.headD []) = some v := hv
    obtain ⟨ls, hls, hjoin⟩ := Option.map_eq_some'.mp hv2
    obtain ⟨hne, hmem⟩ := lineFieldLines_some hls
    rcases ls with _ | ⟨l0, lt⟩
    · exact absurd rfl hne
    · have h0 := hmem l0 (List.mem_cons_self l0 lt)
      have hveq : v = l0 := by
        rw [← hjoin]
        rfl
      rw [hveq]
      exact ⟨h0.1, h0.2.1⟩
  · intro v hv
    have hv2 : (lineFieldLines "zusatzgesuch".data ["gesuchsauflage".data] rejZus
        (fixEncoding s)).map (pyJoin [',']) = some v := hv
    obtain ⟨ls, hls, hjoin⟩ := Option.map_eq_some'.mp hv2
    obtain ⟨hne, hmem⟩ := lineFieldLines_some hls
    exact ⟨ls, hne, hjoin.symm, fun l hl => ⟨(hmem l hl).1, (hmem l hl).2.1⟩⟩

/-- Witness for the amended C3 at a concrete two-field section. -/
theorem c3_reject_sets_witness :
    ∃ ls, ls ≠ [] ∧ "A".data = pyJoin [','] ls ∧
      ∀ l ∈ ls, l ≠ [] ∧ rejHerr l = false :=
  (c3_reject_sets "Bauherrschaft: A\nBauvorhaben: b".data).1 "A".data (by decide)

/-! ### C6 amended: join policy without collapsing -/

theorem collapse_idem_aux : ∀ l : List Char,
    collapseAux false (collapseAux false l) = collapseAux false l
    ∧ collapseAux true (collapseAux true l) = collapseAux true l := by
  intro l
  induction l with
  | nil => exact ⟨rfl, rfl⟩
  | cons c rest ih =>
    by_cases hc : pySpace c
    · constructor
      · show collapseAux false (if pySpace c = true then
            (if false = true then collapseAux true rest
              else ' ' :: collapseAux true rest)
            else c :: collapseAux false rest) = _
        rw [if_pos hc]
        show collapseAux false (' ' :: collapseAux true rest) = _
        rw [collapseAux, if_pos (by decide : pySpace ' ' = true)]
        rw [show (if false = true then collapseAux true (collapseAux true rest)
            else ' ' :: collapseAux true (collapseAux true rest))
            = ' ' :: collapseAux true (collapseAux true rest) from rfl]
        rw [ih.2]
        rw [collapseAux, if_pos hc]
        rfl
      · show collapseAux true (if pySpace c = true then
            (if true = true then collapseAux true rest
              else ' ' :: collapseAux true rest)
            else c :: collapseAux false rest) = _
        rw [if_pos hc]
        show collapseAux true (collapseAux true rest) = _
        rw [ih.2, collapseAux, if_pos hc]
        rfl
    · have hcf : pySpace c = false := by
        rcases Bool.eq_false_or_eq_true (pySpace c) with h1 | h1
        · exact absurd h1 hc
        · exact h1
      constructor
      · rw [collapseAux, if_neg hc, collapseAux, if_neg hc, ih.1]
      · rw [collapseAux, if_neg hc, collapseAux, if_neg hc, ih.1]

/-- C6 amended (the claim as the code implements it).  A line-accumulated
value equals its accepted lines, each individually stripped of leading and
trailing whitespace, joined with the field's separator (comma for
Bauherrschaft, space for Bauvorhaben); internal whitespace runs inside a
line are preserved.  Whitespace collapsing is applied only to the catch-all
capture, which is already collapse-stable. -/
theorem c6_join_policy (s : List Char) :
    (∀ v, (parse_baugesuch s).Bauherrschaft = some v →
      ∃ ls, ls ≠ [] ∧ v = pyJoin [','] ls ∧ ∀ l ∈ ls, pyStrip l = l ∧ l ≠ [])
    ∧ (∀ v, (parse_baugesuch s).Bauvorhaben = some v →
      ∃ ls, ls ≠ [] ∧ v = pyJoin [' '] ls ∧ ∀ l ∈ ls, pyStrip l = l ∧ l ≠ [])
    ∧ (∀ v, othersRaw (fixEncoding s) = some v → collapseWS v = v) := by
  refine ⟨?_, ?_, ?_⟩
  · intro v hv
    have hv2 : (lineFieldLines "bauherrschaft".data ["bauvorhaben:".data] rejHerr
        (fixEncoding s)).map (pyJoin [',']) = some v := hv
    obtain ⟨ls, hls, hjoin⟩ := Option.map_eq_some'.mp hv2
    obtain ⟨hne, hmem⟩ := lineFieldLines_some hls
    exact ⟨ls, hne, hjoin.symm, fun l hl => ⟨(hmem l hl).2.2, (hmem l hl).1⟩⟩
  · intro v hv
    have hv2 : (lineFieldLines "bauvorhaben".data ["lage:".data] rejVor
        (fixEncoding s)).map (pyJoin [' ']) = some v := hv
    obtain ⟨ls, hls, hjoin⟩ := Option.map_eq_some'.mp hv2
    obtain ⟨hne, hmem⟩ := lineFieldLines_some hls
    exact ⟨ls, hne, hjoin.symm, fun l hl => ⟨(hmem l hl).2.2, (hmem l hl).1⟩⟩
  · intro v hv
    rw [othersRaw] at hv
    rcases hk : searchHeaderKeep "gesuchsauflage".data (fixEncoding s) with _ | ⟨m, after⟩
    · rw [hk] at hv
      cases hv
    · rw [hk] at hv
      injection hv with hv2
      rw [← hv2]
      exact (collapse_idem_aux _).1

/-- Witness for the amended C6 at a concrete two-field section. -/
theorem c6_join_policy_witness :
    ∃ ls, ls ≠ [] ∧ "A".data = pyJoin [','] ls ∧
      ∀ l ∈ ls, pyStrip l = l ∧ l ≠ [] :=
  (c6_join_policy "Bauherrschaft: A\nBauvorhaben: b".data).1 "A".data (by decide)

/-! ### C1 amended: normalization follows segmentation -/

/-- C1 amended (the claim as the code implements it).  The assembled output
equals: segment the raw page text, then apply the normalizer followed by
field extraction to each section, then drop all-empty records; and the
normalize-first pipeline of the spec agrees with the code exactly on inputs
the normalizer fixes, i.e. mojibake-free page texts. -/
theorem c1_normalize_order (t : List Char) :
    assemble t = ((find_baugesuch_sections t).map
        (fun sec => parseFields (fixEncoding sec))).filter anyValues
    ∧ (fixEncoding t = t → assemble t = assembleNormalizeFirst t) := by
  constructor
  · rfl
  · intro h
    rw [assembleNormalizeFirst, h]
    rfl

/-- Witness for the amended C1 at a concrete mojibake-free page text. -/
theorem c1_normalize_order_witness :
    assemble "abc".data = assembleNormalizeFirst "abc".data :=
  (c1_normalize_order "abc".data).2 (by decide)

/-! ### C4 amended: terminator truncation is case-sensitive -/

theorem startsCS_eq {pat s : List Char} (h : startsCS pat s = true) :
    s.take pat.length = pat := eq_of_beq h

theorem startsCS_take_false {pat x : List Char} (hp : startsCS pat x = false)
    (q : Nat) : startsCS pat (x.take q) = false := by
  rcases Bool.eq_false_or_eq_true (startsCS pat (x.take q)) with h | h
  · exfalso
    have heq : (x.take q).take pat.length = pat := startsCS_eq h
    rw [List.take_take] at heq
    have hlen := congrArg List.length heq
    rw [List.length_take] at hlen
    have h2 : x.take (min pat.length q) = x.take pat.length := by
      congr 1
      omega
    rw [h2] at heq
    rw [startsCS] at hp
    rw [heq] at hp
    simp at hp
  · exact h

theorem containsCS_decomp {pat : List Char} :
    ∀ {s : List Char}, containsCS pat s = true →
      ∃ q, startsCS pat (s.drop q) = true
  | [], h => Bool.noConfusion h
  | c :: rest, h => by
    rcases Bool.or_eq_true_iff.mp h with h1 | h2
    · exact ⟨0, h1⟩
    · obtain ⟨q, hq⟩ := containsCS_decomp h2
      exact ⟨q + 1, hq⟩

theorem containsCS_of_drop {pat : List Char} (hp : pat ≠ []) :
    ∀ (s : List Char) (q : Nat), startsCS pat (s.drop q) = true →
      containsCS pat s = true
  | [], q, h => by
    rw [List.drop_nil] at h
    have : ([] : List Char).take pat.length = pat := startsCS_eq h
    rw [List.take_nil] at this
    exact absurd this.symm hp
  | c :: rest, 0, h => by
    have h0 : startsCS pat (c :: rest) = true := h
    show (startsCS pat (c :: rest) || containsCS pat rest) = true
    rw [h0]
    rfl
  | c :: rest, Nat.succ q, h => by
    show (startsCS pat (c :: rest) || containsCS pat rest) = true
    rw [containsCS_of_drop hp rest q h]
    exact Bool.or_true _

theorem containsCS_of_decomp {pat : List Char} (hp : pat ≠ []) :
    ∀ (u r : List Char), containsCS pat (u ++ (pat ++ r)) = true
  | [], r => by
    rw [List.nil_append]
    rcases hp2 : pat with _ | ⟨pc, pt⟩
    · exact absurd hp2 hp
    · show (startsCS (pc :: pt) ((pc :: pt) ++ r) || _) = true
      have : startsCS (pc :: pt) ((pc :: pt) ++ r) = true := by
        rw [startsCS, List.take_append_of_le_length (Nat.le_refl _), List.take_length]
        exact beq_self_eq_true _
      rw [this]
      rfl
  | c :: u, r => by
    show (startsCS pat (c :: (u ++ (pat ++ r))) || containsCS pat (u ++ (pat ++ r))) = true
    rw [containsCS_of_decomp hp u r]
    exact Bool.or_true _

theorem containsCS_map_upperC {s : List Char} (h : containsCS bvw s = true) :
    containsCS bvw (s.map upperC) = true := by
  obtain ⟨q, hq⟩ := containsCS_decomp h
  apply containsCS_of_drop (by decide) (s.map upperC) q
  rw [startsCS]
  rw [(List.map_drop upperC s q).symm.trans rfl]
  rw [show ((s.drop q).map upperC).take bvw.length
      = ((s.drop q).take bvw.length).map upperC from (List.map_take upperC (s.drop q) bvw.length).symm]
  rw [startsCS_eq hq]
  decide

/-- The specification of s.split(pat)[0]: either pat does not occur and the
whole string is returned, or the result is the exact prefix before the first
occurrence, itself free of occurrences. -/
theorem tbf_spec (pat : List Char) :
    ∀ s : List Char,
      (containsCS pat s = false ∧ takeBeforeFirst pat s = s)
      ∨ (∃ q rest, takeBeforeFirst pat s = s.take q
          ∧ s = s.take q ++ (pat ++ rest)
          ∧ containsCS pat (s.take q) = false)
  | [] => Or.inl ⟨rfl, rfl⟩
  | c :: rest => by
    by_cases hs : startsCS pat (c :: rest) = true
    · right
      refine ⟨0, (c :: rest).drop pat.length, ?_, ?_, rfl⟩
      · show takeBeforeFirst pat (c :: rest) = []
        rw [takeBeforeFirst, if_pos hs]
      · show c :: rest = [] ++ (pat ++ (c :: rest).drop pat.length)
        calc c :: rest
            = (c :: rest).take pat.length ++ (c :: rest).drop pat.length :=
              (List.take_append_drop _ _).symm
          _ = pat ++ (c :: rest).drop pat.length := by rw [startsCS_eq hs]
          _ = [] ++ (pat ++ (c :: rest).drop pat.length) := by rw [List.nil_append]
    · have hs2 : startsCS pat (c :: rest) = false := by
        rcases Bool.eq_false_or_eq_true (startsCS pat (c :: rest)) with h | h
        · exact absurd h hs
        · exact h
      rcases tbf_spec pat rest with ⟨hc, ht⟩ | ⟨q, r2, htq, hdec, hcq⟩
      · left
        constructor
        · show (startsCS pat (c :: rest) || containsCS pat rest) = false
          rw [hs2, hc]
          rfl
        · rw [takeBeforeFirst, if_neg hs, ht]
      · right
        refine ⟨q + 1, r2, ?_, ?_, ?_⟩
        · rw [takeBeforeFirst, if_neg hs, htq]
          rfl
        · show c :: rest = (c :: rest).take (q + 1) ++ (pat ++ r2)
          rw [show (c :: rest).take (q + 1) = c :: rest.take q from rfl, List.cons_append]
          rw [← hdec]
        · show containsCS pat (c :: rest.take q) = false
          have h1 : startsCS pat (c :: rest.take q) = false := by
            rw [show c :: rest.take q = (c :: rest).take (q + 1) from rfl]
            exact startsCS_take_false hs2 (q + 1)
          show (startsCS pat (c :: rest.take q) || containsCS pat (rest.take q)) = false
          rw [h1, hcq]
          rfl

/-- C4 amended (the claim as the code implements it).  The terminator check
is case-insensitive but the truncation split is case-sensitive: a piece
containing the exact uppercase token BAUVERWALTUNG is truncated at its
first exact occurrence with the canonical terminator appended and the rest
discarded; a piece containing the terminator only in another case variant
is kept whole with the canonical terminator appended at its end; a piece
with no case variant at all is emitted unchanged. -/
theorem c4_terminator (sec : List Char) :
    (containsCS bvw sec = true →
      emitSection sec = takeBeforeFirst bvw sec ++ canonTerm
      ∧ containsCS bvw (takeBeforeFirst bvw sec) = false
      ∧ ∃ rest, sec = takeBeforeFirst bvw sec ++ (bvw ++ rest))
    ∧ (containsCS bvw (sec.map upperC) = true → containsCS bvw sec = false →
        emitSection sec = sec ++ canonTerm)
    ∧ (containsCS bvw (sec.map upperC) = false → emitSection sec = sec) := by
  refine ⟨?_, ?_, ?_⟩
  · intro h
    have hup : containsCS bvw (sec.map upperC) = true := containsCS_map_upperC h
    have he : emitSection sec = takeBeforeFirst bvw sec ++ canonTerm := by
      rw [emitSection, if_pos hup]
    rcases tbf_spec bvw sec with ⟨hc, _⟩ | ⟨q, rest, htq, hdec, hcq⟩
    · rw [h] at hc
      cases hc
    · refine ⟨he, ?_, ⟨rest, ?_⟩⟩
      · rw [htq]
        exact hcq
      · rw [htq]
        exact hdec
  · intro hup hno
    rcases tbf_spec bvw sec with ⟨_, ht⟩ | ⟨q, rest, htq, hdec, hcq⟩
    · rw [emitSection, if_pos hup, ht]
    · exfalso
      have h2 := @containsCS_of_decomp bvw (by decide) (sec.take q) rest
      rw [← hdec] at h2
      rw [h2] at hno
      cases hno
  · intro hup
    rw [emitSection, hup]
    rfl

/-- Witness for the amended C4 at a concrete piece with an exact uppercase
terminator occurrence. -/
theorem c4_terminator_witness :
    emitSection "x BAUVERWALTUNG y".data =
      takeBeforeFirst bvw "x BAUVERWALTUNG y".data ++ canonTerm
    ∧ containsCS bvw (takeBeforeFirst bvw "x BAUVERWALTUNG y".data) = false := by
  have h := (c4_terminator "x BAUVERWALTUNG y".data).1 (by decide)
  exact ⟨h.1, h.2.1⟩

/-! ### C2: segmentation partition -/

theorem iStarts_length {pat s : List Char} (h : iStarts pat s = true) :
    pat.length ≤ s.length := by
  have heq : (s.take pat.length).map lowerC = pat := eq_of_beq h
  have hl := congrArg List.length heq
  rw [List.length_map, List.length_take] at hl
  omega

theorem iStarts_append {pat u : List Char} (h : iStarts pat u = true)
    (w : List Char) : iStarts pat (u ++ w) = true := by
  rw [iStarts, List.take_append_of_le_length (iStarts_length h)]
  exact h

theorem isplit1_spec {pat : List Char} :
    ∀ {s pre post : List Char}, isplit1 pat s = some (pre, post) →
      s = pre ++ post ∧ iStarts pat post = true
      ∧ ∀ q, q < pre.length → iStarts pat (s.drop q) = false
  | [], _, _, h => by cases h
  | c :: rest, pre, post, h => by
    rw [isplit1] at h
    by_cases hi : iStarts pat (c :: rest) = true
    · rw [if_pos hi] at h
      injection h with h2
      injection h2 with hpre hpost
      subst hpre
      subst hpost
      exact ⟨rfl, hi, fun q hq => absurd hq (by simp)⟩
    · rw [if_neg hi] at h
      have hi2 : iStarts pat (c :: rest) = false := by
        rcases Bool.eq_false_or_eq_true (iStarts pat (c :: rest)) with ht | hf
        · exact absurd ht hi
        · exact hf
      rcases hrec : isplit1 pat rest with _ | ⟨pre2, post2⟩
      · rw [hrec] at h
        cases h
      · rw [hrec] at h
        have h3 : some (c :: pre2, post2) = some (pre, post) := h
        injection h3 with h4
        injection h4 with hpre hpost
        subst hpost
        obtain ⟨ha, hb, hmin⟩ := isplit1_spec hrec
        subst hpre
        refine ⟨by rw [List.cons_append, ← ha], hb, ?_⟩
        intro q hq
        cases q with
        | zero => exact hi2
        | succ q2 =>
          have : q2 < pre2.length := by
            rw [List.length_cons] at hq
            omega
          exact hmin q2 this

theorem isplit1_none_spec {pat : List Char} (hp : iStarts pat [] = false) :
    ∀ {s : List Char}, isplit1 pat s = none →
      ∀ q, iStarts pat (s.drop q) = false
  | [], _, q => by
    rw [List.drop_nil]
    exact hp
  | c :: rest, h, q => by
    rw [isplit1] at h
    by_cases hi : iStarts pat (c :: rest) = true
    · rw [if_pos hi] at h
      cases h
    · rw [if_neg hi] at h
      have hi2 : iStarts pat (c :: rest) = false := by
        rcases Bool.eq_false_or_eq_true (iStarts pat (c :: rest)) with ht | hf
        · exact absurd ht hi
        · exact hf
      rcases hrec : isplit1 pat rest with _ | ⟨pre2, post2⟩
      · cases q with
        | zero => exact hi2
        | succ q2 => exact isplit1_none_spec hp hrec q2
      · rw [hrec] at h
        have h2 : some (c :: pre2, post2) = (none : Option (List Char × List Char)) := h
        cases h2

theorem iOcc_cons (pat : List Char) (c : Char) (rest : List Char) :
    iOccCount pat (c :: rest) =
      (if iStarts pat (c :: rest) = true then 1 else 0) + iOccCount pat rest := rfl

theorem iOcc_le_cons (pat : List Char) (c : Char) (rest : List Char) :
    iOccCount pat rest ≤ iOccCount pat (c :: rest) := by
  rw [iOcc_cons]
  omega

theorem iOcc_drop_le (pat : List Char) :
    ∀ (s : List Char) (n : Nat), iOccCount pat (s.drop n) ≤ iOccCount pat s
  | _, 0 => Nat.le_refl _
  | [], Nat.succ _ => Nat.le_refl _
  | c :: rest, Nat.succ n =>
    Nat.le_trans (iOcc_drop_le pat rest n) (iOcc_le_cons pat c rest)

theorem iOcc_append_le (pat : List Char) :
    ∀ (u v : List Char), iOccCount pat v ≤ iOccCount pat (u ++ v)
  | [], _ => Nat.le_refl _
  | c :: u, v => Nat.le_trans (iOcc_append_le pat u v) (iOcc_le_cons pat c (u ++ v))

theorem iOcc_match_step {pat : List Char} (hp : pat ≠ []) {s : List Char}
    (h : iStarts pat s = true) (k : Nat) (hk : 1 ≤ k) :
    1 + iOccCount pat (s.drop k) ≤ iOccCount pat s := by
  rcases s with _ | ⟨c, rest⟩
  · exfalso
    have h1 := iStarts_length h
    rw [List.length_nil] at h1
    exact hp (List.length_eq_zero.mp (Nat.le_zero.mp h1))
  · rw [iOcc_cons, if_pos h]
    have hstep : iOccCount pat ((c :: rest).drop k) ≤ iOccCount pat rest := by
      rcases k with _ | k2
      · omega
      · exact iOcc_drop_le pat rest k2
    omega

theorem piecesAux_length : ∀ (fuel : Nat) (tok rest : List Char),
    (piecesAux fuel tok rest).length ≤ 1 + iOccCount bTok rest
  | 0, tok, rest => by
    rw [piecesAux]
    simp
  | Nat.succ n, tok, rest => by
    rw [piecesAux]
    rcases hrec : isplit1 bTok rest with _ | ⟨pre, post⟩
    · simp
    · obtain ⟨ha, hb, _⟩ := isplit1_spec hrec
      have h1 := piecesAux_length n (post.take bTok.length) (post.drop bTok.length)
      have h2 : 1 + iOccCount bTok (post.drop bTok.length) ≤ iOccCount bTok post :=
        iOcc_match_step (by decide) hb bTok.length (by decide)
      have h3 : iOccCount bTok post ≤ iOccCount bTok rest := by
        rw [ha]
        exact iOcc_append_le bTok pre post
      show ((tok ++ pre) ::
        piecesAux n (post.take bTok.length) (post.drop bTok.length)).length ≤ _
      rw [List.length_cons]
      omega

theorem piecesAux_flatten : ∀ (fuel : Nat) (tok rest : List Char),
    rest.length ≤ fuel → (piecesAux fuel tok rest).flatten = tok ++ rest
  | 0, tok, rest, hf => by
    have h0 : rest = [] := List.length_eq_zero.mp (Nat.le_zero.mp hf)
    subst h0
    rw [piecesAux]
    simp
  | Nat.succ n, tok, rest, hf => by
    rw [piecesAux]
    rcases hrec : isplit1 bTok rest with _ | ⟨pre, post⟩
    · simp
    · obtain ⟨ha, hb, _⟩ := isplit1_spec hrec
      have hlen : bTok.length ≤ post.length := iStarts_length hb
      have hb21 : bTok.length = 21 := rfl
      have hpostlen : post.length ≤ rest.length := by
        rw [ha, List.length_append]
        omega
      have hdrop : (post.drop bTok.length).length ≤ n := by
        rw [List.length_drop]
        omega
      have hj := piecesAux_flatten n (post.take bTok.length) (post.drop bTok.length) hdrop
      show ((tok ++ pre) ::
        piecesAux n (post.take bTok.length) (post.drop bTok.length)).flatten = tok ++ rest
      rw [List.flatten_cons, hj, List.take_append_drop, ha, List.append_assoc]

theorem pieces_length (t : List Char) : (pieces t).length ≤ iOccCount bTok t := by
  rw [pieces]
  rcases hrec : isplit1 bTok t with _ | ⟨pre, post⟩
  · simp
  · obtain ⟨ha, hb, _⟩ := isplit1_spec hrec
    have h1 := piecesAux_length t.length (post.take bTok.length) (post.drop bTok.length)
    have h2 : 1 + iOccCount bTok (post.drop bTok.length) ≤ iOccCount bTok post :=
      iOcc_match_step (by decide) hb bTok.length (by decide)
    have h3 : iOccCount bTok post ≤ iOccCount bTok t := by
      rw [ha]
      exact iOcc_append_le bTok pre post
    show (piecesAux t.length (post.take bTok.length) (post.drop bTok.length)).length ≤ _
    omega

theorem iOcc_zero_of_all_false {pat : List Char} :
    ∀ {s : List Char}, (∀ q, iStarts pat (s.drop q) = false) → iOccCount pat s = 0
  | [], _ => rfl
  | c :: rest, h => by
    have h0 : iStarts pat (c :: rest) = false := h 0
    have hrest : iOccCount pat rest = 0 :=
      iOcc_zero_of_all_false fun q => h (q + 1)
    rw [iOcc_cons, h0, hrest]
    rfl

theorem pieces_flatten (t : List Char) :
    ∃ pre, pre ++ (pieces t).flatten = t ∧ iOccCount bTok pre = 0 := by
  rcases hrec : isplit1 bTok t with _ | ⟨pre, post⟩
  · refine ⟨t, ?_, ?_⟩
    · rw [pieces, hrec]
      simp
    · exact iOcc_zero_of_all_false (isplit1_none_spec (by decide) hrec)
  · obtain ⟨ha, hb, hmin⟩ := isplit1_spec hrec
    have hlen : bTok.length ≤ post.length := iStarts_length hb
    have hpostlen : post.length ≤ t.length := by
      rw [ha, List.length_append]
      omega
    have hdrop : (post.drop bTok.length).length ≤ t.length := by
      rw [List.length_drop]
      omega
    have hj := piecesAux_flatten t.length (post.take bTok.length)
      (post.drop bTok.length) hdrop
    refine ⟨pre, ?_, ?_⟩
    · rw [pieces, hrec]
      show pre ++ (piecesAux t.length (post.take bTok.length)
        (post.drop bTok.length)).flatten = t
      rw [hj, List.take_append_drop, ← ha]
    · apply iOcc_zero_of_all_false
      intro q
      rcases Nat.lt_or_ge q pre.length with hq | hq
      · rcases Bool.eq_false_or_eq_true (iStarts bTok (pre.drop q)) with htr | hfa
        · exfalso
          have hext : iStarts bTok ((pre.drop q) ++ post) = true :=
            iStarts_append htr post
          have hdq : t.drop q = pre.drop q ++ post := by
            rw [ha, List.drop_append_of_le_length (Nat.le_of_lt hq)]
          rw [← hdq] at hext
          rw [hmin q hq] at hext
          cases hext
        · exact hfa
      · rw [List.drop_eq_nil_of_le hq]
        decide

theorem tok_append_starts {tok : List Char} (htok : tok.map lowerC = bTok)
    (w : List Char) : iStarts bTok (tok ++ w) = true := by
  have hlen : tok.length = bTok.length := by
    have := congrArg List.length htok
    rw [List.length_map] at this
    exact this
  rw [iStarts, List.take_append_of_le_length (Nat.le_of_eq hlen.symm), ← hlen,
    List.take_length tok, htok]
  exact beq_self_eq_true _

theorem piecesAux_starts : ∀ (fuel : Nat) (tok rest : List Char),
    tok.map lowerC = bTok → ∀ p ∈ piecesAux fuel tok rest, iStarts bTok p = true
  | 0, tok, rest, htok, p, hp => by
    rw [piecesAux] at hp
    rcases List.mem_singleton.mp hp with rfl
    exact tok_append_starts htok rest
  | Nat.succ n, tok, rest, htok, p, hp => by
    rw [piecesAux] at hp
    rcases hrec : isplit1 bTok rest with _ | ⟨pre, post⟩
    · rw [hrec] at hp
      have hp2 : p ∈ [tok ++ rest] := hp
      rcases List.mem_singleton.mp hp2 with rfl
      exact tok_append_starts htok rest
    · rw [hrec] at hp
      have hp2 : p ∈ (tok ++ pre) ::
          piecesAux n (post.take bTok.length) (post.drop bTok.length) := hp
      rcases List.mem_cons.mp hp2 with rfl | hmem
      · exact tok_append_starts htok pre
      · obtain ⟨_, hb, _⟩ := isplit1_spec hrec
        exact piecesAux_starts n _ _ (eq_of_beq hb) p hmem

theorem pieces_starts (t : List Char) : ∀ p ∈ pieces t, iStarts bTok p = true := by
  intro p hp
  rw [pieces] at hp
  rcases hrec : isplit1 bTok t with _ | ⟨pre, post⟩
  · rw [hrec] at hp
    cases hp
  · rw [hrec] at hp
    obtain ⟨_, hb, _⟩ := isplit1_spec hrec
    exact piecesAux_starts t.length _ _ (eq_of_beq hb) p hp

/-- No case-sensitive occurrence of BAUVERWALTUNG can start inside the
21 characters of a case variant of the header token: the lowered prefixes
disagree at every offset. -/
theorem no_bvw_in_token : ∀ q, q < bTok.length →
    (bTok.drop q).take (min bvw.length (bTok.length - q)) ≠
      (bvw.take (min bvw.length (bTok.length - q))).map lowerC := by decide

theorem emit_keeps_iStarts {p : List Char} (h : iStarts bTok p = true) :
    iStarts bTok (emitSection p) = true := by
  by_cases hup : containsCS bvw (p.map upperC) = true
  · rw [emitSection, if_pos hup]
    rcases tbf_spec bvw p with ⟨_, ht⟩ | ⟨q, rest, htq, hdec, _⟩
    · rw [ht]
      exact iStarts_append h canonTerm
    · rw [htq]
      have hb13 : bvw.length = 13 := rfl
      have hb21 : bTok.length = 21 := rfl
      have hqlen : q ≤ p.length := by
        rcases le_or_lt q p.length with hok | hgt
        · exact hok
        · exfalso
          have hle := congrArg List.length hdec
          rw [List.length_append, List.length_append, List.length_take] at hle
          omega
      have hdq : p.drop q = bvw ++ rest := by
        conv_lhs => rw [hdec]
        rw [List.drop_append_of_le_length (by rw [List.length_take]; omega),
          List.drop_eq_nil_of_le (by rw [List.length_take]; omega), List.nil_append]
      have hplen : bTok.length ≤ p.length := iStarts_length h
      rcases Nat.lt_or_ge q bTok.length with hqlt | hqge
      · exfalso
        have hPT : (p.take bTok.length).map lowerC = bTok := eq_of_beq h
        have e1 : (p.drop q).take (min bvw.length (bTok.length - q)) =
            bvw.take (min bvw.length (bTok.length - q)) := by
          rw [hdq, List.take_append_of_le_length (Nat.min_le_left _ _)]
        have e3 : ((p.drop q).take (min bvw.length (bTok.length - q))).map lowerC =
            (bTok.drop q).take (min bvw.length (bTok.length - q)) := by
          have t1 : (p.drop q).take (min bvw.length (bTok.length - q)) =
              (p.take (q + min bvw.length (bTok.length - q))).drop q := by
            rw [List.drop_take]
            congr 1
            omega
          have t2 : p.take (q + min bvw.length (bTok.length - q)) =
              (p.take bTok.length).take (q + min bvw.length (bTok.length - q)) := by
            rw [List.take_take]
            congr 1
            omega
          rw [t1, t2, List.map_drop, List.map_take, hPT, List.drop_take]
          congr 1
          omega
        rw [e1] at e3
        exact absurd e3.symm (no_bvw_in_token q hqlt)
      · rw [iStarts,
          List.take_append_of_le_length (by rw [List.length_take]; omega),
          List.take_take, show min bTok.length q = bTok.length from by omega]
        exact h
  · rw [emitSection, if_neg hup]
    exact h

theorem isplit1_of_iOcc_zero {pat : List Char} :
    ∀ {s : List Char}, iOccCount pat s = 0 → isplit1 pat s = none
  | [], _ => rfl
  | c :: rest, h => by
    rw [iOcc_cons] at h
    have h1 : iStarts pat (c :: rest) = false := by
      rcases Bool.eq_false_or_eq_true (iStarts pat (c :: rest)) with ht | hf
      · rw [if_pos ht] at h
        omega
      · exact hf
    have h2 : iOccCount pat rest = 0 := by
      rw [h1] at h
      simpa using h
    rw [isplit1, if_neg (by rw [h1]; exact fun hc => Bool.noConfusion hc),
      isplit1_of_iOcc_zero h2]

/-- C2.  Segmentation is a one-sided partition: the emitted sections are at
most one per candidate piece, the pieces are at most one per
case-insensitive header occurrence, every emitted section and every piece
begins with a case variant of the header token, the pieces tile a suffix of
the page text whose complement is occurrence-free (so no two sections
overlap and each occurrence starts at most one section), and a text with
zero occurrences yields the empty sequence. -/
theorem c2_segmentation (t : List Char) :
    (find_baugesuch_sections t).length ≤ (pieces t).length
    ∧ (pieces t).length ≤ iOccCount bTok t
    ∧ (∀ sec ∈ find_baugesuch_sections t, iStarts bTok sec = true)
    ∧ (∀ p ∈ pieces t, iStarts bTok p = true)
    ∧ (∃ pre, pre ++ (pieces t).flatten = t ∧ iOccCount bTok pre = 0)
    ∧ (iOccCount bTok t = 0 → find_baugesuch_sections t = []) := by
  refine ⟨List.length_filterMap_le _ _, pieces_length t, ?_, pieces_starts t,
    pieces_flatten t, ?_⟩
  · intro sec hsec
    rw [find_baugesuch_sections, List.mem_filterMap] at hsec
    obtain ⟨p, hp, hif⟩ := hsec
    have hst := pieces_starts t p hp
    by_cases hw : hasWurenlos p = true
    · rw [if_pos hw] at hif
      injection hif with hif2
      rw [← hif2]
      exact emit_keeps_iStarts hst
    · rw [if_neg hw] at hif
      cases hif
  · intro h0
    rw [find_baugesuch_sections, pieces, isplit1_of_iOcc_zero h0]
    rfl

/-- Witness for C2 at a concrete occurrence-free text. -/
theorem c2_segmentation_witness : find_baugesuch_sections "a".data = [] :=
  (c2_segmentation "a".data).2.2.2.2.2 (by decide)

end LW
